import Mathlib

/-!
Verification of the classical core of the cs239 quantum-algorithms
repository: the oracle-matrix synthesizer shared by
`bernstein_vazirani.py`, `deutsch_jozsa.py` and `simon.py`
(`__apply_uf`), the Grover sign oracles (`__apply_zf`, `__apply_z0`
in `grover.py`), and the two classical Simon equation solvers
(`simon.py` and `simon_eqns_solver.py`).
-/

namespace CS239

/-! ### Oracle matrix synthesizer

`__apply_uf` in `bernstein_vazirani.py` / `deutsch_jozsa.py` builds a
`2^(n+1) × 2^(n+1)` integer matrix of zeros and then, for every
`x in range(2^n)` and `b in [0, 1]`, sets
`U_f[(x << 1) ^ b][(x << 1) ^ (f(x) ^ b)] = 1`.

`__apply_uf` in `simon.py` builds a `2^(2n) × 2^(2n)` matrix of zeros
and, for every `x in range(2^n)` and `b in range(2^n)`, sets
`U_f[(x << n) ^ b][(x << n) ^ (f(x) ^ b)] = 1`.

We embed each matrix as its entry function: an entry is `1` exactly
when the double loop writes `1` there (every write stores `1` over an
all-zero initial matrix, so the order of writes is irrelevant). -/

/-- The list of (row, col) positions written by the double loop of
`BernsteinVazirani.__apply_uf` / `DeutschJozsa.__apply_uf`:
`for x in range(2**n): for b in [0, 1]:
   row = (x << 1) ^ b; col = (x << 1) ^ (f(x) ^ b)`. -/
def uf_entries (n : Nat) (f : Nat → Nat) : List (Nat × Nat) :=
  (List.range (2 ^ n)).flatMap fun x =>
    [0, 1].map fun b => ((x <<< 1) ^^^ b, (x <<< 1) ^^^ (f x ^^^ b))

/-- Entry `(row, col)` of the single-bit oracle matrix `U_f` built by
`BernsteinVazirani.__apply_uf` / `DeutschJozsa.__apply_uf`: zero
matrix with the looped positions set to `1`. -/
def U_f (n : Nat) (f : Nat → Nat) (row col : Nat) : Nat :=
  if (row, col) ∈ uf_entries n f then 1 else 0

/-- The list of (row, col) positions written by the double loop of
`Simon.__apply_uf`:
`for x in range(2**n): for b in range(2**n):
   row = (x << n) ^ b; col = (x << n) ^ (f(x) ^ b)`. -/
def simon_uf_entries (n : Nat) (f : Nat → Nat) : List (Nat × Nat) :=
  (List.range (2 ^ n)).flatMap fun x =>
    (List.range (2 ^ n)).map fun b => ((x <<< n) ^^^ b, (x <<< n) ^^^ (f x ^^^ b))

/-- Entry `(row, col)` of the Simon two-register oracle matrix built by
`Simon.__apply_uf`. -/
def simon_U_f (n : Nat) (f : Nat → Nat) (row col : Nat) : Nat :=
  if (row, col) ∈ simon_uf_entries n f then 1 else 0

/-- Common generalization of the two `__apply_uf` loops: helper
register of `k` bits, shift by `k`. `uf_entries` is the case `k = 1`,
`simon_uf_entries` the case `k = n`. -/
def oracle_entries (n k : Nat) (f : Nat → Nat) : List (Nat × Nat) :=
  (List.range (2 ^ n)).flatMap fun x =>
    (List.range (2 ^ k)).map fun b => ((x <<< k) ^^^ b, (x <<< k) ^^^ (f x ^^^ b))

theorem uf_entries_eq_oracle (n : Nat) (f : Nat → Nat) :
    uf_entries n f = oracle_entries n 1 f := by
  have h2 : List.range (2 ^ 1) = [0, 1] := by decide
  unfold uf_entries oracle_entries
  rw [h2]

theorem simon_uf_entries_eq_oracle (n : Nat) (f : Nat → Nat) :
    simon_uf_entries n f = oracle_entries n n f := rfl

/-! ### Arithmetic of the XOR row/column encoding -/

theorem two_pow_mul_xor_eq_add {k a b : Nat} (hb : b < 2 ^ k) :
    (2 ^ k * a) ^^^ b = 2 ^ k * a + b := by
  apply Nat.eq_of_testBit_eq
  intro j
  rw [Nat.testBit_xor, Nat.testBit_mul_pow_two_add a hb j, Nat.testBit_mul_pow_two]
  by_cases hj : j < k
  · have : ¬ (j ≥ k) := by omega
    simp [hj, this]
  · have hbj : b < 2 ^ j := lt_of_lt_of_le hb (Nat.pow_le_pow_right (by norm_num) (by omega))
    have : j ≥ k := by omega
    simp [hj, this, Nat.testBit_lt_two_pow hbj]

/-- The unique column carrying a `1` in row `r` of the oracle matrix:
decompose `r` as `(x, b)` with `x = r / 2^k`, `b = r % 2^k`, and
re-encode `(x, f x ^^^ b)`. -/
def oracle_step (k : Nat) (f : Nat → Nat) (r : Nat) : Nat :=
  2 ^ k * (r / 2 ^ k) + (f (r / 2 ^ k) ^^^ r % 2 ^ k)

theorem mem_oracle_entries {n k : Nat} {f : Nat → Nat} {r c : Nat} :
    (r, c) ∈ oracle_entries n k f ↔
      ∃ x, x < 2 ^ n ∧ ∃ b, b < 2 ^ k ∧
        r = (x <<< k) ^^^ b ∧ c = (x <<< k) ^^^ (f x ^^^ b) := by
  simp only [oracle_entries, List.mem_flatMap, List.mem_map, List.mem_range,
    Prod.mk.injEq]
  constructor
  · rintro ⟨x, hx, b, hb, hr, hc⟩
    exact ⟨x, hx, b, hb, hr.symm, hc.symm⟩
  · rintro ⟨x, hx, b, hb, hr, hc⟩
    exact ⟨x, hx, b, hb, hr.symm, hc.symm⟩

theorem oracle_entries_char {n k : Nat} {f : Nat → Nat}
    (hf : ∀ x, x < 2 ^ n → f x < 2 ^ k) {r c : Nat} :
    (r, c) ∈ oracle_entries n k f ↔
      r < 2 ^ (n + k) ∧ c = oracle_step k f r := by
  have hk : 0 < 2 ^ k := Nat.pos_pow_of_pos k (by norm_num)
  rw [mem_oracle_entries]
  constructor
  · rintro ⟨x, hx, b, hb, hr, hc⟩
    rw [Nat.shiftLeft_eq, Nat.mul_comm] at hr hc
    have hfb : f x ^^^ b < 2 ^ k := Nat.xor_lt_two_pow (hf x hx) hb
    rw [two_pow_mul_xor_eq_add hb] at hr
    rw [two_pow_mul_xor_eq_add hfb] at hc
    have hdiv : r / 2 ^ k = x := by
      rw [hr, Nat.mul_add_div hk, Nat.div_eq_of_lt hb, Nat.add_zero]
    have hmod : r % 2 ^ k = b := by
      rw [hr, Nat.mul_add_mod, Nat.mod_eq_of_lt hb]
    refine ⟨?_, ?_⟩
    · have : 2 ^ k * x + b < 2 ^ k * (x + 1) := by
        rw [Nat.mul_add, Nat.mul_one]; omega
      have h2 : 2 ^ k * (x + 1) ≤ 2 ^ k * 2 ^ n := by
        exact Nat.mul_le_mul_left _ (by omega)
      rw [hr]
      calc 2 ^ k * x + b < 2 ^ k * 2 ^ n := by omega
        _ = 2 ^ (n + k) := by rw [← Nat.pow_add, Nat.add_comm k n]
    · rw [oracle_step, hdiv, hmod, hc]
  · rintro ⟨hr, hc⟩
    have hx : r / 2 ^ k < 2 ^ n := by
      apply Nat.div_lt_of_lt_mul
      rw [← Nat.pow_add, Nat.add_comm k n]
      exact hr
    have hb : r % 2 ^ k < 2 ^ k := Nat.mod_lt _ hk
    refine ⟨r / 2 ^ k, hx, r % 2 ^ k, hb, ?_, ?_⟩
    · rw [Nat.shiftLeft_eq, Nat.mul_comm, two_pow_mul_xor_eq_add hb,
        Nat.div_add_mod]
    · rw [Nat.shiftLeft_eq, Nat.mul_comm,
        two_pow_mul_xor_eq_add (Nat.xor_lt_two_pow (hf _ hx) hb), hc,
        oracle_step]

theorem oracle_step_lt {n k : Nat} {f : Nat → Nat}
    (hf : ∀ x, x < 2 ^ n → f x < 2 ^ k) {r : Nat} (hr : r < 2 ^ (n + k)) :
    oracle_step k f r < 2 ^ (n + k) := by
  have hk : 0 < 2 ^ k := Nat.pos_pow_of_pos k (by norm_num)
  have hx : r / 2 ^ k < 2 ^ n := by
    apply Nat.div_lt_of_lt_mul
    rw [← Nat.pow_add, Nat.add_comm k n]
    exact hr
  have hb : r % 2 ^ k < 2 ^ k := Nat.mod_lt _ hk
  have hfb : f (r / 2 ^ k) ^^^ r % 2 ^ k < 2 ^ k :=
    Nat.xor_lt_two_pow (hf _ hx) hb
  have : 2 ^ k * (r / 2 ^ k) + (f (r / 2 ^ k) ^^^ r % 2 ^ k)
      < 2 ^ k * (r / 2 ^ k + 1) := by
    rw [Nat.mul_add, Nat.mul_one]; omega
  have h2 : 2 ^ k * (r / 2 ^ k + 1) ≤ 2 ^ k * 2 ^ n :=
    Nat.mul_le_mul_left _ (by omega)
  calc oracle_step k f r < 2 ^ k * 2 ^ n := by
        rw [oracle_step]; omega
    _ = 2 ^ (n + k) := by rw [← Nat.pow_add, Nat.add_comm k n]

theorem oracle_step_div {k : Nat} {f : Nat → Nat}
    (hfr : f (r / 2 ^ k) < 2 ^ k) :
    oracle_step k f r / 2 ^ k = r / 2 ^ k := by
  have hk : 0 < 2 ^ k := Nat.pos_pow_of_pos k (by norm_num)
  have hb : r % 2 ^ k < 2 ^ k := Nat.mod_lt _ hk
  have hfb : f (r / 2 ^ k) ^^^ r % 2 ^ k < 2 ^ k := Nat.xor_lt_two_pow hfr hb
  rw [oracle_step, Nat.mul_add_div hk, Nat.div_eq_of_lt hfb, Nat.add_zero]

theorem oracle_step_mod {k : Nat} {f : Nat → Nat}
    (hfr : f (r / 2 ^ k) < 2 ^ k) :
    oracle_step k f r % 2 ^ k = f (r / 2 ^ k) ^^^ r % 2 ^ k := by
  have hk : 0 < 2 ^ k := Nat.pos_pow_of_pos k (by norm_num)
  have hb : r % 2 ^ k < 2 ^ k := Nat.mod_lt _ hk
  have hfb : f (r / 2 ^ k) ^^^ r % 2 ^ k < 2 ^ k := Nat.xor_lt_two_pow hfr hb
  rw [oracle_step, Nat.mul_add_mod, Nat.mod_eq_of_lt hfb]

/-- Applying the oracle step twice returns to the start: the encoded
helper bit is XORed with `f x` twice. -/
theorem oracle_step_involutive {k : Nat} {f : Nat → Nat}
    (hfr : f (r / 2 ^ k) < 2 ^ k) :
    oracle_step k f (oracle_step k f r) = r := by
  have h1 := oracle_step_div (f := f) hfr
  rw [oracle_step, h1, oracle_step_mod (f := f) hfr,
    Nat.xor_cancel_left, Nat.div_add_mod]

theorem encode_div_lt {n k r : Nat} (hr : r < 2 ^ (n + k)) : r / 2 ^ k < 2 ^ n := by
  apply Nat.div_lt_of_lt_mul
  rw [← Nat.pow_add, Nat.add_comm k n]
  exact hr

/-- Column-based characterization: the unique row holding a `1` in
column `c` is `oracle_step k f c` (the same map, by XOR involutivity). -/
theorem oracle_entries_char_col {n k : Nat} {f : Nat → Nat}
    (hf : ∀ x, x < 2 ^ n → f x < 2 ^ k) {r c : Nat} :
    (r, c) ∈ oracle_entries n k f ↔
      c < 2 ^ (n + k) ∧ r = oracle_step k f c := by
  rw [oracle_entries_char hf]
  constructor
  · rintro ⟨hr, rfl⟩
    refine ⟨oracle_step_lt hf hr, ?_⟩
    rw [oracle_step_involutive (hf _ (encode_div_lt hr))]
  · rintro ⟨hc, rfl⟩
    refine ⟨oracle_step_lt hf hc, ?_⟩
    rw [oracle_step_involutive (hf _ (encode_div_lt hc))]

theorem oracle_row_sum {n k : Nat} {f : Nat → Nat}
    (hf : ∀ x, x < 2 ^ n → f x < 2 ^ k) {r : Nat} (hr : r < 2 ^ (n + k)) :
    ∑ c ∈ Finset.range (2 ^ (n + k)),
      (if (r, c) ∈ oracle_entries n k f then 1 else 0) = 1 := by
  have hstep : oracle_step k f r < 2 ^ (n + k) := oracle_step_lt hf hr
  have key : ∀ c, ((r, c) ∈ oracle_entries n k f) ↔ c = oracle_step k f r := by
    intro c
    rw [oracle_entries_char hf]
    exact ⟨fun h => h.2, fun h => ⟨hr, h⟩⟩
  calc ∑ c ∈ Finset.range (2 ^ (n + k)),
        (if (r, c) ∈ oracle_entries n k f then 1 else 0)
      = ∑ c ∈ Finset.range (2 ^ (n + k)),
        (if c = oracle_step k f r then 1 else 0) := by
        refine Finset.sum_congr rfl fun c _ => ?_
        exact if_congr (key c) rfl rfl
    _ = 1 := by
        rw [Finset.sum_ite_eq' (Finset.range (2 ^ (n + k)))]
        simp [Finset.mem_range, hstep]

theorem oracle_col_sum {n k : Nat} {f : Nat → Nat}
    (hf : ∀ x, x < 2 ^ n → f x < 2 ^ k) {c : Nat} (hc : c < 2 ^ (n + k)) :
    ∑ r ∈ Finset.range (2 ^ (n + k)),
      (if (r, c) ∈ oracle_entries n k f then 1 else 0) = 1 := by
  have hstep : oracle_step k f c < 2 ^ (n + k) := oracle_step_lt hf hc
  have key : ∀ r, ((r, c) ∈ oracle_entries n k f) ↔ r = oracle_step k f c := by
    intro r
    rw [oracle_entries_char_col hf]
    exact ⟨fun h => h.2, fun h => ⟨hc, h⟩⟩
  calc ∑ r ∈ Finset.range (2 ^ (n + k)),
        (if (r, c) ∈ oracle_entries n k f then 1 else 0)
      = ∑ r ∈ Finset.range (2 ^ (n + k)),
        (if r = oracle_step k f c then 1 else 0) := by
        refine Finset.sum_congr rfl fun r _ => ?_
        exact if_congr (key r) rfl rfl
    _ = 1 := by
        rw [Finset.sum_ite_eq' (Finset.range (2 ^ (n + k)))]
        simp [Finset.mem_range, hstep]

/-! ### Claim theorems for the oracle matrices -/

/-- C1: for every `n ≥ 1` and every oracle `f` mapping `[0, 2^n)` to
`{0, 1}`, the single-bit oracle matrix built from `(n, f)` (dimension
`2^(n+1) × 2^(n+1)`) is a permutation matrix: every row and every
column sums to exactly `1`, for any such `f`. -/
theorem uf_matrix_is_permutation (n : Nat) (f : Nat → Nat) (hn : 1 ≤ n)
    (hf : ∀ x, x < 2 ^ n → f x < 2) :
    (∀ r, r < 2 ^ (n + 1) → ∑ c ∈ Finset.range (2 ^ (n + 1)), U_f n f r c = 1) ∧
    (∀ c, c < 2 ^ (n + 1) → ∑ r ∈ Finset.range (2 ^ (n + 1)), U_f n f r c = 1) := by
  have hf' : ∀ x, x < 2 ^ n → f x < 2 ^ 1 := by simpa using hf
  constructor
  · intro r hr
    have h := oracle_row_sum hf' (r := r) hr
    simpa only [U_f, uf_entries_eq_oracle] using h
  · intro c hc
    have h := oracle_col_sum hf' (c := c) hc
    simpa only [U_f, uf_entries_eq_oracle] using h

theorem uf_matrix_is_permutation_witness :
    ((1 : Nat) ≤ 1 ∧ (∀ x, x < 2 ^ 1 → (fun _ => 0 : Nat → Nat) x < 2)) ∧
    ((∀ r, r < 2 ^ (1 + 1) →
        ∑ c ∈ Finset.range (2 ^ (1 + 1)), U_f 1 (fun _ => 0) r c = 1) ∧
     (∀ c, c < 2 ^ (1 + 1) →
        ∑ r ∈ Finset.range (2 ^ (1 + 1)), U_f 1 (fun _ => 0) r c = 1)) :=
  ⟨⟨by decide, by decide⟩,
    uf_matrix_is_permutation 1 (fun _ => 0) (by decide) (by decide)⟩

/-- C2: for every `n ≥ 1`, `f : [0, 2^n) → {0,1}`, `x < 2^n` and
helper bit `b < 2`, the matrix has a `1` at
`row = (x <<< 1) ^^^ b`, `col = (x <<< 1) ^^^ (f x ^^^ b)` and `0`
everywhere else; in particular for `n = 2`, `f(x) = [1,0,0,1][x]`,
exactly `8` entries of the `8 × 8` matrix are `1`. -/
theorem uf_entry_law (n : Nat) (f : Nat → Nat) (hn : 1 ≤ n)
    (hf : ∀ x, x < 2 ^ n → f x < 2) :
    (∀ x, x < 2 ^ n → ∀ b, b < 2 →
      U_f n f ((x <<< 1) ^^^ b) ((x <<< 1) ^^^ (f x ^^^ b)) = 1) ∧
    (∀ r c, (∀ x, x < 2 ^ n → ∀ b, b < 2 →
        ¬(r = (x <<< 1) ^^^ b ∧ c = (x <<< 1) ^^^ (f x ^^^ b))) →
      U_f n f r c = 0) ∧
    (∑ r ∈ Finset.range (2 ^ 3), ∑ c ∈ Finset.range (2 ^ 3),
      U_f 2 (fun x => [1, 0, 0, 1].getD x 0) r c = 8) := by
  refine ⟨?_, ?_, by decide⟩
  · intro x hx b hb
    have hmem : ((x <<< 1) ^^^ b, (x <<< 1) ^^^ (f x ^^^ b)) ∈ oracle_entries n 1 f := by
      rw [mem_oracle_entries]
      exact ⟨x, hx, b, by simpa using hb, rfl, rfl⟩
    rw [U_f, uf_entries_eq_oracle, if_pos hmem]
  · intro r c hno
    rw [U_f, uf_entries_eq_oracle, if_neg]
    intro hmem
    obtain ⟨x, hx, b, hb, hr, hc⟩ := mem_oracle_entries.1 hmem
    exact hno x hx b (by simpa using hb) ⟨hr, hc⟩

theorem uf_entry_law_witness :
    ((1 : Nat) ≤ 2 ∧ (∀ x, x < 2 ^ 2 → [1, 0, 0, 1].getD x 0 < 2)) ∧
    ((∀ x, x < 2 ^ 2 → ∀ b, b < 2 →
      U_f 2 (fun x => [1, 0, 0, 1].getD x 0) ((x <<< 1) ^^^ b)
        ((x <<< 1) ^^^ ([1, 0, 0, 1].getD x 0 ^^^ b)) = 1) ∧
     (∀ r c, (∀ x, x < 2 ^ 2 → ∀ b, b < 2 →
        ¬(r = (x <<< 1) ^^^ b ∧ c = (x <<< 1) ^^^ ([1, 0, 0, 1].getD x 0 ^^^ b))) →
      U_f 2 (fun x => [1, 0, 0, 1].getD x 0) r c = 0) ∧
     (∑ r ∈ Finset.range (2 ^ 3), ∑ c ∈ Finset.range (2 ^ 3),
      U_f 2 (fun x => [1, 0, 0, 1].getD x 0) r c = 8)) :=
  ⟨⟨by decide, by decide⟩,
    uf_entry_law 2 (fun x => [1, 0, 0, 1].getD x 0) (by decide) (by decide)⟩

/-- C4: the Simon two-register oracle matrix from `(n, f)` with
`f : [0, 2^n) → [0, 2^n)` has a `1` exactly at
`row = (x <<< n) ^^^ b`, `col = (x <<< n) ^^^ (f x ^^^ b)` for
`x, b < 2^n`, zeros elsewhere, and is a `2^(2n) × 2^(2n)` permutation
matrix. -/
theorem simon_uf_matrix_is_permutation (n : Nat) (f : Nat → Nat) (hn : 1 ≤ n)
    (hf : ∀ x, x < 2 ^ n → f x < 2 ^ n) :
    (∀ x, x < 2 ^ n → ∀ b, b < 2 ^ n →
      simon_U_f n f ((x <<< n) ^^^ b) ((x <<< n) ^^^ (f x ^^^ b)) = 1) ∧
    (∀ r c, (∀ x, x < 2 ^ n → ∀ b, b < 2 ^ n →
        ¬(r = (x <<< n) ^^^ b ∧ c = (x <<< n) ^^^ (f x ^^^ b))) →
      simon_U_f n f r c = 0) ∧
    (∀ r, r < 2 ^ (2 * n) →
      ∑ c ∈ Finset.range (2 ^ (2 * n)), simon_U_f n f r c = 1) ∧
    (∀ c, c < 2 ^ (2 * n) →
      ∑ r ∈ Finset.range (2 ^ (2 * n)), simon_U_f n f r c = 1) := by
  have h2n : 2 * n = n + n := Nat.two_mul n
  refine ⟨?_, ?_, ?_, ?_⟩
  · intro x hx b hb
    have hmem : ((x <<< n) ^^^ b, (x <<< n) ^^^ (f x ^^^ b)) ∈ oracle_entries n n f := by
      rw [mem_oracle_entries]
      exact ⟨x, hx, b, hb, rfl, rfl⟩
    rw [simon_U_f, simon_uf_entries_eq_oracle, if_pos hmem]
  · intro r c hno
    rw [simon_U_f, simon_uf_entries_eq_oracle, if_neg]
    intro hmem
    obtain ⟨x, hx, b, hb, hr, hc⟩ := mem_oracle_entries.1 hmem
    exact hno x hx b hb ⟨hr, hc⟩
  · intro r hr
    rw [h2n] at hr ⊢
    have h := oracle_row_sum hf (r := r) hr
    simpa only [simon_U_f, simon_uf_entries_eq_oracle] using h
  · intro c hc
    rw [h2n] at hc ⊢
    have h := oracle_col_sum hf (c := c) hc
    simpa only [simon_U_f, simon_uf_entries_eq_oracle] using h

theorem simon_uf_matrix_is_permutation_witness :
    ((1 : Nat) ≤ 1 ∧ (∀ x, x < 2 ^ 1 → (fun y => y : Nat → Nat) x < 2 ^ 1)) ∧
    ((∀ x, x < 2 ^ 1 → ∀ b, b < 2 ^ 1 →
      simon_U_f 1 (fun y => y) ((x <<< 1) ^^^ b) ((x <<< 1) ^^^ (x ^^^ b)) = 1) ∧
     (∀ r c, (∀ x, x < 2 ^ 1 → ∀ b, b < 2 ^ 1 →
        ¬(r = (x <<< 1) ^^^ b ∧ c = (x <<< 1) ^^^ (x ^^^ b))) →
      simon_U_f 1 (fun y => y) r c = 0) ∧
     (∀ r, r < 2 ^ (2 * 1) →
      ∑ c ∈ Finset.range (2 ^ (2 * 1)), simon_U_f 1 (fun y => y) r c = 1) ∧
     (∀ c, c < 2 ^ (2 * 1) →
      ∑ r ∈ Finset.range (2 ^ (2 * 1)), simon_U_f 1 (fun y => y) r c = 1)) :=
  ⟨⟨by decide, by decide⟩,
    simon_uf_matrix_is_permutation 1 (fun y => y) (by decide) (by decide)⟩

/-- C5: the single-bit oracle matrix is self-inverse: in row
`(x <<< 1) ^^^ b` the unique `1` sits in column
`(x <<< 1) ^^^ (f x ^^^ b)`, applying the matrix again from that
column returns to `(x <<< 1) ^^^ b`, and entrywise `M * M` is the
identity on `[0, 2^(n+1))`. -/
theorem uf_self_inverse (n : Nat) (f : Nat → Nat) (hn : 1 ≤ n)
    (hf : ∀ x, x < 2 ^ n → f x < 2) :
    (∀ x, x < 2 ^ n → ∀ b, b < 2 → ∀ c,
      (U_f n f ((x <<< 1) ^^^ b) c = 1 ↔ c = (x <<< 1) ^^^ (f x ^^^ b))) ∧
    (∀ x, x < 2 ^ n → ∀ b, b < 2 →
      U_f n f ((x <<< 1) ^^^ (f x ^^^ b)) ((x <<< 1) ^^^ b) = 1) ∧
    (∀ r c, r < 2 ^ (n + 1) → c < 2 ^ (n + 1) →
      ∑ j ∈ Finset.range (2 ^ (n + 1)), U_f n f r j * U_f n f j c
        = if r = c then 1 else 0) := by
  have hf' : ∀ x, x < 2 ^ n → f x < 2 ^ 1 := by simpa using hf
  have hent : ∀ r c, U_f n f r c
      = if (r, c) ∈ oracle_entries n 1 f then 1 else 0 := by
    intro r c
    rw [U_f, uf_entries_eq_oracle]
  refine ⟨?_, ?_, ?_⟩
  · intro x hx b hb c
    have hmem : ((x <<< 1) ^^^ b, (x <<< 1) ^^^ (f x ^^^ b)) ∈ oracle_entries n 1 f := by
      rw [mem_oracle_entries]
      exact ⟨x, hx, b, by simpa using hb, rfl, rfl⟩
    obtain ⟨hrlt, hstep⟩ := (oracle_entries_char hf').1 hmem
    rw [hent]
    constructor
    · intro h1
      by_cases hm : ((x <<< 1) ^^^ b, c) ∈ oracle_entries n 1 f
      · obtain ⟨-, hc⟩ := (oracle_entries_char hf').1 hm
        rw [hc, ← hstep]
      · rw [if_neg hm] at h1
        exact absurd h1 (by norm_num)
    · rintro rfl
      rw [if_pos hmem]
  · intro x hx b hb
    have hfb : f x ^^^ b < 2 := by
      have : f x ^^^ b < 2 ^ 1 :=
        Nat.xor_lt_two_pow (hf' x hx) (by simpa using hb)
      simpa using this
    have hmem : ((x <<< 1) ^^^ (f x ^^^ b), (x <<< 1) ^^^ b) ∈ oracle_entries n 1 f := by
      rw [mem_oracle_entries]
      refine ⟨x, hx, f x ^^^ b, by simpa using hfb, rfl, ?_⟩
      rw [Nat.xor_cancel_left]
    rw [hent, if_pos hmem]
  · intro r c hr hc
    have hstepr : oracle_step 1 f r < 2 ^ (n + 1) := oracle_step_lt hf' hr
    have hrow : ∀ j, U_f n f r j = if j = oracle_step 1 f r then 1 else 0 := by
      intro j
      rw [hent]
      by_cases hm : (r, j) ∈ oracle_entries n 1 f
      · obtain ⟨-, hj⟩ := (oracle_entries_char hf').1 hm
        rw [if_pos hm, if_pos hj]
      · rw [if_neg hm, if_neg]
        intro hj
        exact hm ((oracle_entries_char hf').2 ⟨hr, hj⟩)
    calc ∑ j ∈ Finset.range (2 ^ (n + 1)), U_f n f r j * U_f n f j c
        = ∑ j ∈ Finset.range (2 ^ (n + 1)),
            (if j = oracle_step 1 f r then U_f n f j c else 0) := by
          refine Finset.sum_congr rfl fun j _ => ?_
          rw [hrow j]
          by_cases hj : j = oracle_step 1 f r
          · rw [if_pos hj, if_pos hj, Nat.one_mul]
          · rw [if_neg hj, if_neg hj, Nat.zero_mul]
      _ = U_f n f (oracle_step 1 f r) c := by
          rw [Finset.sum_ite_eq' (Finset.range (2 ^ (n + 1)))]
          rw [if_pos (Finset.mem_range.2 hstepr)]
      _ = if r = c then 1 else 0 := by
          have hinv : oracle_step 1 f (oracle_step 1 f r) = r :=
            oracle_step_involutive (hf' _ (encode_div_lt hr))
          rw [hent]
          by_cases hm : (oracle_step 1 f r, c) ∈ oracle_entries n 1 f
          · obtain ⟨-, hcs⟩ := (oracle_entries_char hf').1 hm
            rw [if_pos hm, if_pos (by rw [hcs, hinv])]
          · rw [if_neg hm, if_neg]
            rintro rfl
            exact hm ((oracle_entries_char hf').2 ⟨hstepr, hinv.symm⟩)

theorem uf_self_inverse_witness :
    ((1 : Nat) ≤ 1 ∧ (∀ x, x < 2 ^ 1 → (fun _ => 1 : Nat → Nat) x < 2)) ∧
    ((∀ x, x < 2 ^ 1 → ∀ b, b < 2 → ∀ c,
      (U_f 1 (fun _ => 1) ((x <<< 1) ^^^ b) c = 1 ↔ c = (x <<< 1) ^^^ (1 ^^^ b))) ∧
     (∀ x, x < 2 ^ 1 → ∀ b, b < 2 →
      U_f 1 (fun _ => 1) ((x <<< 1) ^^^ (1 ^^^ b)) ((x <<< 1) ^^^ b) = 1) ∧
     (∀ r c, r < 2 ^ (1 + 1) → c < 2 ^ (1 + 1) →
      ∑ j ∈ Finset.range (2 ^ (1 + 1)), U_f 1 (fun _ => 1) r j * U_f 1 (fun _ => 1) j c
        = if r = c then 1 else 0)) :=
  ⟨⟨by decide, by decide⟩,
    uf_self_inverse 1 (fun _ => 1) (by decide) (by decide)⟩

/-- C9 counterexample: at `n = 0` (the only natural number below 1)
the synthesizer does not fail: the loop construction goes through and
yields a well-formed `2 × 2` permutation matrix, with no precondition
check anywhere on the path. -/
theorem uf_n_zero_no_failure_cex :
    (∑ c ∈ Finset.range (2 ^ (0 + 1)), U_f 0 (fun _ => 0) 0 c = 1) ∧
    (∑ c ∈ Finset.range (2 ^ (0 + 1)), U_f 0 (fun _ => 0) 1 c = 1) ∧
    (∑ r ∈ Finset.range (2 ^ (0 + 1)), U_f 0 (fun _ => 0) r 0 = 1) ∧
    (∑ r ∈ Finset.range (2 ^ (0 + 1)), U_f 0 (fun _ => 0) r 1 = 1) := by
  decide

/-- C9 amended: for `n = 0` the synthesizer performs no precondition
check and silently returns a well-formed `2 × 2` permutation matrix
(the `n = 0` instance of the general construction), for every oracle
`f` with `f 0 < 2`; it does not fail fast. -/
theorem uf_n_zero_wellformed (f : Nat → Nat) (hf : ∀ x, x < 2 ^ 0 → f x < 2) :
    (∀ r, r < 2 ^ (0 + 1) →
      ∑ c ∈ Finset.range (2 ^ (0 + 1)), U_f 0 f r c = 1) ∧
    (∀ c, c < 2 ^ (0 + 1) →
      ∑ r ∈ Finset.range (2 ^ (0 + 1)), U_f 0 f r c = 1) := by
  have hf' : ∀ x, x < 2 ^ 0 → f x < 2 ^ 1 := by simpa using hf
  constructor
  · intro r hr
    have h := oracle_row_sum hf' (r := r) hr
    simpa only [U_f, uf_entries_eq_oracle] using h
  · intro c hc
    have h := oracle_col_sum hf' (c := c) hc
    simpa only [U_f, uf_entries_eq_oracle] using h

theorem uf_n_zero_wellformed_witness :
    (∀ x, x < 2 ^ 0 → (fun _ => 1 : Nat → Nat) x < 2) ∧
    ((∀ r, r < 2 ^ (0 + 1) →
      ∑ c ∈ Finset.range (2 ^ (0 + 1)), U_f 0 (fun _ => 1) r c = 1) ∧
     (∀ c, c < 2 ^ (0 + 1) →
      ∑ r ∈ Finset.range (2 ^ (0 + 1)), U_f 0 (fun _ => 1) r c = 1)) :=
  ⟨by decide, uf_n_zero_wellformed (fun _ => 1) (by decide)⟩

/-! ### Classical Simon equation solver (`simon.py`) -/

namespace simon

/-- Fuel-indexed helper for the binary-digit sum: one step strips the
lowest binary digit. The fuel only bounds the recursion depth. -/
def binDigitsSumAux : Nat → Nat → Nat
  | 0, _ => 0
  | fuel + 1, m => if m = 0 then 0 else m % 2 + binDigitsSumAux fuel (m / 2)

/-- Sum of the binary digits of `m`, as computed by
`sum([int(i) for i in "{0:b}".format(m)])` inside `simon_check_eqns`
(`simon.py`), i.e. the population count of `m`. Halving `m` at most
`m` times always reaches `0`, so `m` itself is enough fuel. -/
def binDigitsSum (m : Nat) : Nat := binDigitsSumAux m m

/-- Embedding of `simon_check_eqns` (`simon.py`): a candidate `tgt` is accepted
when, for every equation `e`, the binary-digit sum of `e & tgt` is
even (early-exit loop over `eqns`, equivalent to `List.all` for this
pure predicate). -/
def simon_check_eqns (eqns : List Nat) (tgt : Nat) : Bool :=
  eqns.all fun e => binDigitsSum (e &&& tgt) % 2 == 0

/-- Embedding of `simon_eqns_solver` (`simon.py`): scan the candidates
`tgts[1:] = [1, ..., 2^n - 1]` in ascending order and return the
first accepted one; return `0` if none is accepted. -/
def simon_eqns_solver (eqns : List Nat) (n : Nat) : Nat :=
  match ((List.range (2 ^ n)).drop 1).find? (fun t => simon_check_eqns eqns t) with
  | some t => t
  | none => 0

theorem binDigitsSumAux_congr :
    ∀ fuel fuel' m, m ≤ fuel → m ≤ fuel' →
      binDigitsSumAux fuel m = binDigitsSumAux fuel' m := by
  intro fuel
  induction fuel with
  | zero =>
    intro fuel' m h h'
    have hm : m = 0 := by omega
    subst hm
    cases fuel' with
    | zero => rfl
    | succ g => simp [binDigitsSumAux]
  | succ fuel ih =>
    intro fuel' m h h'
    by_cases hm : m = 0
    · subst hm
      cases fuel' with
      | zero => simp [binDigitsSumAux]
      | succ g => simp [binDigitsSumAux]
    · cases fuel' with
      | zero => omega
      | succ g =>
        have hdiv : m / 2 < m := Nat.div_lt_self (by omega) (by omega)
        simp only [binDigitsSumAux, if_neg hm]
        rw [ih g (m / 2) (by omega) (by omega)]

theorem binDigitsSum_eq_bit_add (m : Nat) (hm : m ≠ 0) :
    binDigitsSum m = m % 2 + binDigitsSum (m / 2) := by
  cases m with
  | zero => exact absurd rfl hm
  | succ k =>
    have hdiv : (k + 1) / 2 < k + 1 := Nat.div_lt_self (by omega) (by omega)
    show binDigitsSumAux (k + 1) (k + 1) = _
    simp only [binDigitsSumAux, if_neg (Nat.succ_ne_zero k)]
    rw [binDigitsSumAux_congr k ((k + 1) / 2) ((k + 1) / 2) (by omega) (by omega)]
    rfl

/-- First-match specification of `List.find?` over `range'`. -/
theorem find?_range'_first (p : Nat → Bool) :
    ∀ len s : Nat,
      (∀ t, (List.range' s len).find? p = some t →
        s ≤ t ∧ t < s + len ∧ p t = true ∧ ∀ u, s ≤ u → u < t → p u = false) ∧
      ((List.range' s len).find? p = none →
        ∀ u, s ≤ u → u < s + len → p u = false) := by
  intro len
  induction len with
  | zero =>
    intro s
    constructor
    · intro t ht
      simp [List.range'] at ht
    · intro _ u hu hu'
      omega
  | succ len ih =>
    intro s
    rw [List.range'_succ]
    by_cases hps : p s = true
    · constructor
      · intro t ht
        rw [List.find?_cons_of_pos _ hps] at ht
        injection ht with h
        subst h
        exact ⟨Nat.le_refl s, by omega, hps, fun u h1 h2 => absurd h1 (by omega)⟩
      · intro hnone
        rw [List.find?_cons_of_pos _ hps] at hnone
        exact absurd hnone (by simp)
    · have hps' : p s = false := by
        cases h : p s
        · rfl
        · exact absurd h hps
      constructor
      · intro t ht
        rw [List.find?_cons_of_neg _ hps] at ht
        obtain ⟨h1, h2, h3, h4⟩ := (ih (s + 1)).1 t ht
        refine ⟨by omega, by omega, h3, ?_⟩
        intro u hu hut
        rcases Nat.eq_or_lt_of_le hu with h | h
        · rw [← h]; exact hps'
        · exact h4 u h hut
      · intro hnone
        rw [List.find?_cons_of_neg _ hps] at hnone
        intro u hu hul
        rcases Nat.eq_or_lt_of_le hu with h | h
        · rw [← h]; exact hps'
        · exact (ih (s + 1)).2 hnone u h (by omega)

theorem range_drop_one (N : Nat) (hN : 1 ≤ N) :
    (List.range N).drop 1 = List.range' 1 (N - 1) := by
  cases N with
  | zero => omega
  | succ M =>
    rw [List.range_eq_range', List.range'_succ]
    simp

/-- C3: for every `n ≥ 1` and every equation list, `simon_eqns_solver`
returns the smallest `t` in `[1, 2^n - 1]` (ascending search) whose
bitwise-AND parity with every equation is even, and `0` when no such
`t` exists; in particular for `eqns = [0, 0, 0]` it returns `1`. -/
theorem simon_eqns_solver_least (n : Nat) (hn : 1 ≤ n) (eqns : List Nat) :
    ((∃ t, 1 ≤ t ∧ t < 2 ^ n ∧ simon_check_eqns eqns t = true) →
      (1 ≤ simon_eqns_solver eqns n ∧ simon_eqns_solver eqns n < 2 ^ n ∧
       simon_check_eqns eqns (simon_eqns_solver eqns n) = true ∧
       ∀ u, 1 ≤ u → u < simon_eqns_solver eqns n →
         simon_check_eqns eqns u = false)) ∧
    ((∀ t, 1 ≤ t → t < 2 ^ n → simon_check_eqns eqns t = false) →
      simon_eqns_solver eqns n = 0) ∧
    simon_eqns_solver [0, 0, 0] n = 1 := by
  have h1 : 1 ≤ 2 ^ n := Nat.one_le_two_pow
  have h2 : 2 ≤ 2 ^ n := by
    calc 2 = 2 ^ 1 := rfl
      _ ≤ 2 ^ n := Nat.pow_le_pow_right (by omega) hn
  have hlen : 1 + (2 ^ n - 1) = 2 ^ n := by omega
  have hdrop := range_drop_one (2 ^ n) h1
  refine ⟨?_, ?_, ?_⟩
  · intro ⟨t, ht1, ht2, htc⟩
    cases hfind : (List.range' 1 (2 ^ n - 1)).find? (fun t => simon_check_eqns eqns t) with
    | some v =>
      have hsolver : simon_eqns_solver eqns n = v := by
        rw [simon_eqns_solver, hdrop, hfind]
      obtain ⟨hv1, hv2, hv3, hv4⟩ :=
        ((find?_range'_first (fun t => simon_check_eqns eqns t)) (2 ^ n - 1) 1).1 v hfind
      rw [hsolver]
      exact ⟨hv1, by omega, hv3, fun u hu1 hu2 => hv4 u hu1 hu2⟩
    | none =>
      have hall :=
        ((find?_range'_first (fun t => simon_check_eqns eqns t)) (2 ^ n - 1) 1).2 hfind
      have := hall t ht1 (by omega)
      rw [this] at htc
      exact absurd htc (by simp)
  · intro hall
    cases hfind : (List.range' 1 (2 ^ n - 1)).find? (fun t => simon_check_eqns eqns t) with
    | some v =>
      obtain ⟨hv1, hv2, hv3, -⟩ :=
        ((find?_range'_first (fun t => simon_check_eqns eqns t)) (2 ^ n - 1) 1).1 v hfind
      rw [hall v hv1 (by omega)] at hv3
      exact absurd hv3 (by simp)
    | none =>
      rw [simon_eqns_solver, hdrop, hfind]
  · rw [simon_eqns_solver, hdrop]
    have hsplit : 2 ^ n - 1 = (2 ^ n - 2) + 1 := by omega
    rw [hsplit, List.range'_succ]
    rw [List.find?_cons_of_pos _ (by decide :
      simon_check_eqns [0, 0, 0] 1 = true)]

theorem simon_eqns_solver_least_witness :
    (1 ≤ 1) ∧
    (((∃ t, 1 ≤ t ∧ t < 2 ^ 1 ∧ simon_check_eqns [1] t = true) →
      (1 ≤ simon_eqns_solver [1] 1 ∧ simon_eqns_solver [1] 1 < 2 ^ 1 ∧
       simon_check_eqns [1] (simon_eqns_solver [1] 1) = true ∧
       ∀ u, 1 ≤ u → u < simon_eqns_solver [1] 1 →
         simon_check_eqns [1] u = false)) ∧
     ((∀ t, 1 ≤ t → t < 2 ^ 1 → simon_check_eqns [1] t = false) →
      simon_eqns_solver [1] 1 = 0) ∧
     simon_eqns_solver [0, 0, 0] 1 = 1) :=
  ⟨by decide, simon_eqns_solver_least 1 (by decide) [1]⟩

/-- C7 counterexample: on `n = 3`, `eqns = [0b110, 0b011, 0b101]` the
solver does not return `0b110` (that candidate fails: `0b011 & 0b110`
has odd popcount). -/
theorem simon_solver_example_cex : simon_eqns_solver [6, 3, 5] 3 ≠ 6 := by decide

/-- C7 amended: on `n = 3`, `eqns = [0b110, 0b011, 0b101]` the solver
returns `0b111`, the unique nonzero candidate orthogonal to all three
equations (these three equations are exactly the nonzero vectors
orthogonal to `0b111`, not to `0b110`). -/
theorem simon_solver_example : simon_eqns_solver [6, 3, 5] 3 = 7 := by decide

theorem and_mod_two_pow {n e t : Nat} (ht : t < 2 ^ n) :
    (e % 2 ^ n) &&& t = e &&& t := by
  apply Nat.eq_of_testBit_eq
  intro i
  rw [Nat.testBit_and, Nat.testBit_and, Nat.testBit_mod_two_pow]
  by_cases hi : i < n
  · simp [hi]
  · have hti : t.testBit i = false :=
      Nat.testBit_lt_two_pow
        (lt_of_lt_of_le ht (Nat.pow_le_pow_right (by omega) (by omega)))
    simp [hi, hti]

theorem find?_congr_of_mem {p q : Nat → Bool} :
    ∀ l : List Nat, (∀ a ∈ l, p a = q a) → l.find? p = l.find? q := by
  intro l
  induction l with
  | nil => intro _; rfl
  | cons a l ih =>
    intro h
    have ha := h a (List.mem_cons_self a l)
    by_cases hpa : p a = true
    · rw [List.find?_cons_of_pos _ hpa, List.find?_cons_of_pos _ (ha ▸ hpa)]
    · have hqa : ¬ q a = true := fun hq => hpa (ha ▸ hq)
      rw [List.find?_cons_of_neg _ hpa, List.find?_cons_of_neg _ hqa]
      exact ih fun b hb => h b (List.mem_cons_of_mem a hb)

/-- C8: the solver's result is unchanged when every equation `e` is
replaced by `e % 2^n`: bits of an equation at positions `≥ n` never
affect the output. -/
theorem simon_solver_ignores_high_bits (n : Nat) (hn : 1 ≤ n) (eqns : List Nat) :
    simon_eqns_solver (eqns.map (· % 2 ^ n)) n = simon_eqns_solver eqns n := by
  have h1 : 1 ≤ 2 ^ n := Nat.one_le_two_pow
  have hdrop := range_drop_one (2 ^ n) h1
  have hcheck : ∀ t, t < 2 ^ n →
      simon_check_eqns (eqns.map (· % 2 ^ n)) t = simon_check_eqns eqns t := by
    intro t ht
    rw [simon_check_eqns, simon_check_eqns, List.all_map]
    have hfun : ((fun e => binDigitsSum (e &&& t) % 2 == 0) ∘ (· % 2 ^ n))
        = fun e => binDigitsSum (e &&& t) % 2 == 0 := by
      funext e
      show (binDigitsSum ((e % 2 ^ n) &&& t) % 2 == 0)
          = (binDigitsSum (e &&& t) % 2 == 0)
      rw [and_mod_two_pow ht]
    rw [hfun]
  rw [simon_eqns_solver, simon_eqns_solver, hdrop]
  rw [find?_congr_of_mem (List.range' 1 (2 ^ n - 1)) ?_]
  intro a hamem
  obtain ⟨i, hi, hia⟩ := List.mem_range'.1 hamem
  exact hcheck a (by omega)

theorem simon_solver_ignores_high_bits_witness :
    (1 ≤ 1) ∧
    simon_eqns_solver ([2].map (· % 2 ^ 1)) 1 = simon_eqns_solver [2] 1 :=
  ⟨by decide, simon_solver_ignores_high_bits 1 (by decide) [2]⟩

end simon

/-! ### Grover sign oracles (`grover.py`) -/

namespace grover

/-- Entry `(r, c)` of the `Z_f` matrix built by `Grover.__apply_zf`
(the matrix is `2^n × 2^n`, so entries are meaningful for
`r, c < 2^n`): `np.eye(2^n)` whose diagonal entry `x` is overwritten
with `(-1) ** f(x)`, after which the whole matrix is multiplied by
`-1` to account for the leading minus in `G`. -/
def Z_f (n : Nat) (f : Nat → Nat) (r c : Nat) : Int :=
  -1 * (if r = c then (-1 : Int) ^ f r else 0)

/-- Entry `(r, c)` of the `Z_0` matrix built by `Grover.__apply_z0`:
`np.eye(2^n)` with entry `[0][0]` set to `-1`. -/
def Z_0 (n : Nat) (r c : Nat) : Int :=
  if r = 0 ∧ c = 0 then -1 else if r = c then 1 else 0

/-- C6: for `n = 2` and `f x = 1` iff `x = 0b10`, the matrix `Z_f`
equals `diag(1, 1, -1, 1)` up to the single global sign factor `-1`
applied to the whole matrix, and `Z_0` equals `diag(-1, 1, 1, 1)`
exactly. -/
theorem grover_sign_oracles :
    ∃ s : Int, (s = 1 ∨ s = -1) ∧
      (∀ r, r < 4 → ∀ c, c < 4 →
        Z_f 2 (fun x => if x = 2 then 1 else 0) r c
          = s * (if r = c then (if r = 2 then (-1 : Int) else 1) else 0)) ∧
      (∀ r, r < 4 → ∀ c, c < 4 →
        Z_0 2 r c = (if r = c then (if r = 0 then (-1 : Int) else 1) else 0)) :=
  ⟨-1, Or.inr rfl, by decide, by decide⟩

end grover

/-! ### Array-based Simon solver (`simon_eqns_solver.py`) -/

namespace simon_eqns_solver

/-- Embedding of `arr_to_int` (`simon_eqns_solver.py`): reverse the list, then run
`res += arr[i] * 2**i` for `i in range(len(arr))`. -/
def arr_to_int (arr : List Nat) : Nat :=
  (List.range arr.reverse.length).foldl
    (fun res i => res + arr.reverse.getD i 0 * 2 ^ i) 0

/-- Embedding of `findall_tgts` (`simon_eqns_solver.py`): starting from `[[]]`,
`n` times replace every sequence `seq` of the previous round by
`seq + [0]` and `seq + [1]`, in that order. -/
def findall_tgts : Nat → List (List Nat)
  | 0 => [[]]
  | n + 1 => (findall_tgts n).flatMap fun seq => [seq ++ [0], seq ++ [1]]

/-- Embedding of `simon_check_eqns` (`simon_eqns_solver.py`): every equation row
vector must satisfy `np.dot(e, tgt) % 2 == 0` (early-exit loop,
equivalent to `List.all` for this pure predicate). -/
def simon_check_eqns (eqns : List (List Nat)) (tgt : List Nat) : Bool :=
  eqns.all fun e => (List.zipWith (· * ·) e tgt).sum % 2 == 0

/-- Embedding of `simon_eqns_solver` (`simon_eqns_solver.py`): scan `tgts[1:]` in
order, return `arr_to_int` of the first accepted target, else
`arr_to_int([0, 0, 0])`. -/
def simon_eqns_solver (eqns : List (List Nat)) (n : Nat) : Nat :=
  match ((findall_tgts n).drop 1).find? (fun t => simon_check_eqns eqns t) with
  | some t => arr_to_int t
  | none => arr_to_int [0, 0, 0]

/-- The `n`-bit 0/1 row vector of an integer, most significant bit
first: the encoding under which the refinement claim presents an
integer equation of `simon.py` to the array-based solver. -/
def int_to_arr (n e : Nat) : List Nat :=
  (List.range n).reverse.map fun i => e / 2 ^ i % 2

theorem foldl_range_add_eq_sum (g : Nat → Nat) :
    ∀ N acc, (List.range N).foldl (fun res i => res + g i) acc
      = acc + ∑ i ∈ Finset.range N, g i := by
  intro N
  induction N with
  | zero => intro acc; simp
  | succ N ih =>
    intro acc
    rw [List.range_succ, List.foldl_append, ih, Finset.sum_range_succ]
    simp [Nat.add_assoc]

theorem getD_map_range (g : Nat → Nat) {n i : Nat} (h : i < n) :
    ((List.range n).map g).getD i 0 = g i := by
  rw [List.getD_eq_getElem?_getD, List.getElem?_map, List.getElem?_range h]
  rfl

theorem sum_bits_eq_mod (e : Nat) :
    ∀ n, ∑ i ∈ Finset.range n, e / 2 ^ i % 2 * 2 ^ i = e % 2 ^ n := by
  intro n
  induction n with
  | zero => simp [Nat.mod_one]
  | succ n ih =>
    rw [Finset.sum_range_succ, ih, pow_succ, Nat.mod_mul]
    ring

theorem arr_to_int_int_to_arr (n e : Nat) :
    arr_to_int (int_to_arr n e) = e % 2 ^ n := by
  have hrev : (int_to_arr n e).reverse
      = (List.range n).map fun i => e / 2 ^ i % 2 := by
    rw [int_to_arr, List.map_reverse, List.reverse_reverse]
  rw [arr_to_int, hrev, List.length_map, List.length_range,
    foldl_range_add_eq_sum, Nat.zero_add]
  calc ∑ i ∈ Finset.range n,
        ((List.range n).map fun j => e / 2 ^ j % 2).getD i 0 * 2 ^ i
      = ∑ i ∈ Finset.range n, e / 2 ^ i % 2 * 2 ^ i := by
        refine Finset.sum_congr rfl fun i hi => ?_
        rw [getD_map_range _ (Finset.mem_range.1 hi)]
    _ = e % 2 ^ n := sum_bits_eq_mod e n

theorem int_to_arr_succ (n e : Nat) :
    int_to_arr (n + 1) e = e / 2 ^ n % 2 :: int_to_arr n e := by
  rw [int_to_arr, int_to_arr, List.range_succ, List.reverse_append]
  rfl

theorem int_to_arr_append (n e : Nat) :
    int_to_arr (n + 1) e = int_to_arr n (e / 2) ++ [e % 2] := by
  induction n generalizing e with
  | zero =>
    rw [int_to_arr_succ, pow_zero, Nat.div_one]
    rfl
  | succ n ih =>
    rw [int_to_arr_succ, ih, int_to_arr_succ, List.cons_append]
    congr 1
    rw [Nat.div_div_eq_div_mul, ← pow_succ']

theorem range_two_mul :
    ∀ M : Nat, List.range (2 * M)
      = (List.range M).flatMap fun j => [2 * j, 2 * j + 1] := by
  intro M
  induction M with
  | zero => rfl
  | succ M ih =>
    have h : 2 * (M + 1) = (2 * M + 1) + 1 := by omega
    rw [h, List.range_succ, List.range_succ, show 2 * M + 1 = 2 * M + 1 from rfl]
    rw [List.range_succ, List.flatMap_append, ← ih]
    simp [List.append_assoc]

theorem findall_tgts_eq_map (n : Nat) :
    findall_tgts n = (List.range (2 ^ n)).map (int_to_arr n) := by
  induction n with
  | zero => decide
  | succ n ih =>
    have hfun : ∀ j : Nat, [int_to_arr n j ++ [0], int_to_arr n j ++ [1]]
        = [int_to_arr (n + 1) (2 * j), int_to_arr (n + 1) (2 * j + 1)] := by
      intro j
      rw [int_to_arr_append, int_to_arr_append]
      have h1 : 2 * j / 2 = j := by omega
      have h2 : 2 * j % 2 = 0 := by omega
      have h3 : (2 * j + 1) / 2 = j := by omega
      have h4 : (2 * j + 1) % 2 = 1 := by omega
      rw [h1, h2, h3, h4]
    have h2 : (2 : Nat) ^ (n + 1) = 2 * 2 ^ n := by rw [pow_succ']
    rw [findall_tgts, ih, h2, range_two_mul, List.flatMap_map, List.map_flatMap]
    refine congrArg (List.flatMap (List.range (2 ^ n))) ?_
    funext j
    show [int_to_arr n j ++ [0], int_to_arr n j ++ [1]]
        = [int_to_arr (n + 1) (2 * j), int_to_arr (n + 1) (2 * j + 1)]
    exact hfun j

theorem zipWith_mul_same (g h : Nat → Nat) :
    ∀ l : List Nat, List.zipWith (· * ·) (l.map g) (l.map h)
      = l.map fun x => g x * h x := by
  intro l
  induction l with
  | nil => rfl
  | cons a l ih => simp only [List.map_cons, List.zipWith_cons_cons, ih]

theorem sum_map_range (F : Nat → Nat) :
    ∀ n, ((List.range n).map F).sum = ∑ i ∈ Finset.range n, F i := by
  intro n
  induction n with
  | zero => rfl
  | succ n ih =>
    rw [List.range_succ, List.map_append, List.sum_append, ih,
      Finset.sum_range_succ]
    simp

theorem bit_and_eq_mul (e t i : Nat) :
    (e &&& t) / 2 ^ i % 2 = e / 2 ^ i % 2 * (t / 2 ^ i % 2) := by
  have h := Nat.testBit_and e t i
  rw [Nat.testBit_to_div_mod, Nat.testBit_to_div_mod,
    Nat.testBit_to_div_mod] at h
  generalize (e &&& t) / 2 ^ i = A at h ⊢
  generalize e / 2 ^ i = B at h ⊢
  generalize t / 2 ^ i = C at h ⊢
  rcases Nat.mod_two_eq_zero_or_one A with hA | hA <;>
    rcases Nat.mod_two_eq_zero_or_one B with hB | hB <;>
    rcases Nat.mod_two_eq_zero_or_one C with hC | hC <;>
    rw [hA, hB, hC] at h ⊢ <;> simp_all

theorem binDigitsSum_eq_sum_bits :
    ∀ j m : Nat, m < 2 ^ j →
      simon.binDigitsSum m = ∑ i ∈ Finset.range j, m / 2 ^ i % 2 := by
  intro j
  induction j with
  | zero =>
    intro m hm
    have hm0 : m = 0 := by
      have : m < 1 := by simpa using hm
      omega
    subst hm0
    rfl
  | succ j ih =>
    intro m hm
    by_cases h0 : m = 0
    · subst h0
      simp [simon.binDigitsSum, simon.binDigitsSumAux]
    · rw [simon.binDigitsSum_eq_bit_add m h0]
      have h2 : (2 : Nat) ^ (j + 1) = 2 * 2 ^ j := by rw [pow_succ']
      have hdiv : m / 2 < 2 ^ j := by
        apply Nat.div_lt_of_lt_mul
        omega
      rw [ih (m / 2) hdiv, Finset.sum_range_succ']
      have hsum : ∑ i ∈ Finset.range j, m / 2 ^ (i + 1) % 2
          = ∑ i ∈ Finset.range j, m / 2 / 2 ^ i % 2 :=
        Finset.sum_congr rfl fun i _ => by
          rw [Nat.div_div_eq_div_mul, ← pow_succ']
      rw [hsum, pow_zero, Nat.div_one, Nat.add_comm]

theorem dot_int_to_arr (n e t : Nat) (ht : t < 2 ^ n) :
    (List.zipWith (· * ·) (int_to_arr n e) (int_to_arr n t)).sum
      = simon.binDigitsSum (e &&& t) := by
  rw [int_to_arr, int_to_arr, zipWith_mul_same, List.map_reverse,
    List.sum_reverse, sum_map_range]
  have hand : e &&& t < 2 ^ n := Nat.and_lt_two_pow e ht
  rw [binDigitsSum_eq_sum_bits n (e &&& t) hand]
  exact Finset.sum_congr rfl fun i _ => (bit_and_eq_mul e t i).symm

theorem all_map_general {α β : Type} (f : α → β) (p : β → Bool) :
    ∀ l : List α, (l.map f).all p = l.all fun a => p (f a) := by
  intro l
  induction l with
  | nil => rfl
  | cons a l ih => simp only [List.map_cons, List.all_cons, ih]

/-- C10: the integer-based solver of `simon.py` and the bit-array
solver of `simon_eqns_solver.py` agree when each integer equation is
presented to the latter as its `n`-bit 0/1 vector (MSB first):
`findall_tgts` enumerates the candidates in ascending integer order
under `arr_to_int`, the array parity check agrees with the
popcount-of-AND check, and the two solvers return the same integer
(both `0` when no candidate is accepted). -/
theorem solver_refinement (n : Nat) (hn : 1 ≤ n) (eqns : List Nat) :
    ((findall_tgts n).map arr_to_int = List.range (2 ^ n)) ∧
    (∀ t, t < 2 ^ n →
      simon_check_eqns (eqns.map (int_to_arr n)) (int_to_arr n t)
        = simon.simon_check_eqns eqns t) ∧
    simon_eqns_solver (eqns.map (int_to_arr n)) n
      = simon.simon_eqns_solver eqns n := by
  have hpt : ∀ t, t < 2 ^ n →
      simon_check_eqns (eqns.map (int_to_arr n)) (int_to_arr n t)
        = simon.simon_check_eqns eqns t := by
    intro t ht
    rw [simon_check_eqns, simon.simon_check_eqns, all_map_general]
    have hfun : (fun e =>
          (List.zipWith (· * ·) (int_to_arr n e) (int_to_arr n t)).sum % 2 == 0)
        = fun e => simon.binDigitsSum (e &&& t) % 2 == 0 := by
      funext e
      rw [dot_int_to_arr n e t ht]
    rw [hfun]
  have hfind_eq :
      ((findall_tgts n).drop 1).find?
          (fun t => simon_check_eqns (eqns.map (int_to_arr n)) t)
        = (((List.range (2 ^ n)).drop 1).find?
            (fun t => simon.simon_check_eqns eqns t)).map (int_to_arr n) := by
    rw [findall_tgts_eq_map, ← List.map_drop, List.find?_map]
    congr 1
    apply simon.find?_congr_of_mem
    intro a ha
    have halt : a < 2 ^ n := List.mem_range.1 (List.mem_of_mem_drop ha)
    show simon_check_eqns (eqns.map (int_to_arr n)) (int_to_arr n a)
        = simon.simon_check_eqns eqns a
    exact hpt a halt
  refine ⟨?_, hpt, ?_⟩
  · rw [findall_tgts_eq_map, List.map_map]
    have hid : ∀ x ∈ List.range (2 ^ n), (arr_to_int ∘ int_to_arr n) x = id x := by
      intro x hx
      show arr_to_int (int_to_arr n x) = x
      rw [arr_to_int_int_to_arr, Nat.mod_eq_of_lt (List.mem_range.1 hx)]
    rw [List.map_congr_left hid, List.map_id]
  · cases hfind : ((List.range (2 ^ n)).drop 1).find?
        (fun t => simon.simon_check_eqns eqns t) with
    | some t =>
      have htlt : t < 2 ^ n :=
        List.mem_range.1 (List.mem_of_mem_drop (List.mem_of_find?_eq_some hfind))
      have hl : simon_eqns_solver (eqns.map (int_to_arr n)) n
          = arr_to_int (int_to_arr n t) := by
        rw [simon_eqns_solver, hfind_eq, hfind]
        rfl
      have hr : simon.simon_eqns_solver eqns n = t := by
        rw [simon.simon_eqns_solver, hfind]
      rw [hl, hr, arr_to_int_int_to_arr, Nat.mod_eq_of_lt htlt]
    | none =>
      have hl : simon_eqns_solver (eqns.map (int_to_arr n)) n
          = arr_to_int [0, 0, 0] := by
        rw [simon_eqns_solver, hfind_eq, hfind]
        rfl
      have hr : simon.simon_eqns_solver eqns n = 0 := by
        rw [simon.simon_eqns_solver, hfind]
      rw [hl, hr]
      decide

theorem solver_refinement_witness :
    (1 ≤ 1) ∧
    ((((findall_tgts 1).map arr_to_int = List.range (2 ^ 1)) ∧
      (∀ t, t < 2 ^ 1 →
        simon_check_eqns ([1].map (int_to_arr 1)) (int_to_arr 1 t)
          = simon.simon_check_eqns [1] t) ∧
      simon_eqns_solver ([1].map (int_to_arr 1)) 1
        = simon.simon_eqns_solver [1] 1)) :=
  ⟨by decide, solver_refinement 1 (by decide) [1]⟩

end simon_eqns_solver

end CS239
